import Mathlib

/-!
Verification of the transcription decoding controller of
pulibrary/voice_search_server (`src/transcription.rs`).

The embedding models the decoder's pure control logic over explicit state:

* `f32`/`f64` metric values are rationals (`ℚ`); values the code can leave as
  `f64::NAN` are `Option ℚ` with `none` standing for NaN, compared through
  `floatGt`, which is `false` whenever the left operand is NaN — exactly the
  IEEE behaviour of the `>` operator used by the code.
* logits after masking are `WithBot ℚ`, where `⊥` models `-∞` produced by the
  suppression mask; `f32::total_cmp` restricted to these values is the linear
  order of `WithBot ℚ`.
* the external model, tokenizer and numeric kernels (encoder/decoder forward
  pass, softmax probability of a chosen token, `ln`) are injected capabilities
  (`DecodeEnv`), per the repository design: the decoder drives them but never
  computes tensors itself.  The real-valued softmax/weighted-sampling path used
  at `t > 0` is embedded separately (`softmaxT`, `sampleW`, `nextTokenSel`) to
  settle the suppression-mask property.
* the mutable rng (`rand::rngs::StdRng`) is an abstract state `ρ` threaded
  through `decode`, consumed only by the `t > 0` sampling call.
-/

set_option linter.unusedVariables false

/-- A logit value after masking: `⊥` models `-∞` (from the suppression mask),
finite `f32` values are modelled as rationals. -/
abbrev Logit := WithBot ℚ

/-- `f32::total_cmp` restricted to the values of the embedding (no NaNs, no
`-0.0` distinction): the comparison of the linear order on `WithBot ℚ`. -/
def totalCmp (a b : Logit) : Ordering :=
  if a < b then Ordering.lt else if a = b then Ordering.eq else Ordering.gt

/-- `HOP_LENGTH` from `candle_transformers::models::whisper` (external
configuration constant, §6 of the design). -/
def HOP_LENGTH : Nat := 160

/-- `SAMPLE_RATE` from `candle_transformers::models::whisper`. -/
def SAMPLE_RATE : Nat := 16000

/-- `N_FRAMES` from `candle_transformers::models::whisper`: the maximal window
size in frames (30 seconds of audio). -/
def N_FRAMES : Nat := 3000

/-- `COMPRESSION_RATIO_THRESHOLD = 2.4` from
`candle_transformers::models::whisper`, as the kernel-reducible rational
`12/5`. -/
def COMPRESSION_RATIO_THRESHOLD : ℚ := mkRat 12 5

/-- `LOGPROB_THRESHOLD` from `candle_transformers::models::whisper`. -/
def LOGPROB_THRESHOLD : ℚ := -1

/-- `NO_SPEECH_THRESHOLD = 0.6` from `candle_transformers::models::whisper`,
as the kernel-reducible rational `3/5`. -/
def NO_SPEECH_THRESHOLD : ℚ := mkRat 3 5

/-- `TEMPERATURES = [0.0, 0.2, 0.4, 0.6, 0.8, 1.0]` from
`candle_transformers::models::whisper`: the fallback ladder of sampling
temperatures, as kernel-reducible rationals. -/
def TEMPERATURES : List ℚ := [0, mkRat 1 5, mkRat 2 5, mkRat 3 5, mkRat 4 5, 1]

/-- IEEE `>` with a possibly-NaN left operand (`none` = NaN): NaN compares
`false` against everything, as in the Rust `f64 >` used by the quality gates. -/
def floatGt (x : Option ℚ) (c : ℚ) : Bool :=
  match x with
  | none => false
  | some q => decide (c < q)

/-- `DecodingResult` (transcription.rs, lines 239-246).  `avg_logprob` is always
a finite quotient in the code, hence plain `ℚ`; `no_speech_prob` and
`compression_ratio` can be left at `f64::NAN`, hence `Option ℚ`. -/
structure DecodingResult where
  tokens : List Nat
  text : String
  avg_logprob : ℚ
  no_speech_prob : Option ℚ
  temperature : ℚ
  compression_ratio : Option ℚ
deriving DecidableEq

/-- `Segment` (transcription.rs, lines 251-255). -/
structure Segment where
  start : ℚ
  duration : ℚ
  dr : DecodingResult
deriving DecidableEq

/-- One step of `Iterator::max_by` (transcription.rs, line 155): the
accumulator is kept only when it compares strictly greater, so on ties the
later element wins, as documented for Rust `max_by`. -/
def maxByStep (acc x : Nat × Logit) : Nat × Logit :=
  if totalCmp acc.2 x.2 = Ordering.gt then acc else x

/-- The `max_by` fold over the enumerated logits sitting at indices
`idx, idx+1, ...`. -/
def argmaxGo : List Logit → Nat → Nat × Logit → Nat × Logit
  | [], _, acc => acc
  | v :: vs, idx, acc => argmaxGo vs (idx + 1) (maxByStep acc (idx, v))

/-- The `t == 0` selection (transcription.rs, lines 150-158):
`logits_v.iter().enumerate().max_by(|(_, u), (_, v)| u.total_cmp(v))`.
The `.unwrap()` on an empty vector is modelled by the junk index `0`; every
theorem about `argmaxTok` assumes a non-empty vector. -/
def argmaxTok (l : List Logit) : Nat :=
  match l with
  | [] => 0
  | v :: vs => (argmaxGo vs 1 (0, v)).1

/-- The suppression mask built by `Decoder::new` (transcription.rs, lines
68-78): `-∞` at every configured suppressed id, `0` elsewhere. -/
def buildMask (vocabSize : Nat) (suppress : List Nat) : List Logit :=
  (List.range vocabSize).map
    (fun i => if i ∈ suppress then (⊥ : Logit) else ((0 : ℚ) : Logit))

/-- `logits.broadcast_add(&self.suppress_tokens)` (transcription.rs, line 144):
element-wise addition, where `-∞ + x = -∞`. -/
def maskLogits (raw mask : List Logit) : List Logit :=
  List.zipWith (· + ·) raw mask

/-- `rand` `WeightedIndex::sample` as a function of the uniform draw
`x ∈ [0, total_weight)` produced by the rng: the first index whose cumulative
weight strictly exceeds `x` (rand returns the index whose cumulative-weight
interval contains the draw). -/
noncomputable def sampleW : List ℝ → ℝ → Nat
  | [], _ => 0
  | w :: ws, x => if x < w then 0 else sampleW ws (x - w) + 1

/-- `exp` of a logit divided by the temperature, with `exp (-∞) = 0`: the
softmax numerator of `softmax(&(&logits / t))` (transcription.rs, line 146). -/
noncomputable def expW (t : ℚ) (v : Logit) : ℝ :=
  WithBot.recBotCoe 0 (fun q => Real.exp ((q : ℝ) / (t : ℝ))) v

/-- candle `softmax` over `logits / t` (transcription.rs, line 146) on values
extended with `-∞`: each weight is its exponential divided by the sum of all
exponentials. -/
noncomputable def softmaxT (t : ℚ) (l : List Logit) : List ℝ :=
  (l.map (expW t)).map (fun w => w / (l.map (expW t)).sum)

/-- Token selection over the masked logits (transcription.rs, lines 145-158):
weighted sampling from the softmaxed distribution when `t > 0` (with `x` the
rng draw), argmax by `total_cmp` when `t == 0`. -/
noncomputable def nextTokenSel (t : ℚ) (masked : List Logit) (x : ℝ) : Nat :=
  if 0 < t then sampleW (softmaxT t masked) x else argmaxTok masked

/-- The external capabilities consumed by `Decoder::decode` (§6 of the design):
the model forward passes, the numeric kernels and the tokenizer are injected;
`ρ` is the abstract state of the mutable rng (`rand::rngs::StdRng`).
`logitsAt` gives the masked-input raw logits at the final sequence position for
the current token sequence (`decoder.forward` + `final_linear`, lines 121-136);
`noSpeechProbAt` the softmaxed first-position probability of the no-speech
token read on the first iteration (lines 125-130); `probOf` the softmax
probability of a chosen token over the masked logits (lines 160-162); `lnOf`
the natural logarithm (line 166); `sampleAt` the `t > 0` weighted draw
consuming the rng (lines 146-149); `decodeText` the tokenizer decode with
special tokens skipped (line 168). -/
structure DecodeEnv (ρ : Type) where
  vocabSize : Nat
  maxTargetPositions : Nat
  suppressTokens : List Nat
  sotToken : Nat
  transcribeToken : Nat
  eotToken : Nat
  noTimestampsToken : Nat
  languageToken : Option Nat
  logitsAt : List Nat → List Logit
  noSpeechProbAt : List Nat → ℚ
  probOf : List Logit → Nat → ℚ
  lnOf : ℚ → ℚ
  sampleAt : ℚ → List Logit → ρ → Nat × ρ
  decodeText : List Nat → String

/-- The prompt prefix (transcription.rs, lines 109-114): start-of-transcript,
optional language token, transcribe token, no-timestamps token. -/
def initTokens {ρ : Type} (env : DecodeEnv ρ) : List Nat :=
  [env.sotToken] ++
    (match env.languageToken with
     | some l => [l]
     | none => []) ++
    [env.transcribeToken, env.noTimestampsToken]

/-- The generation loop of `Decoder::decode` (transcription.rs, lines 115-167),
with `fuel` the remaining iterations of `for i in 0..sample_len` and `i` the
iteration counter.  Per step: record the no-speech probability on the first
iteration, mask the logits, select the next token (consuming rng only when
`t > 0`), append it, look up its softmax probability, stop if it is the
end-of-transcript token or the sequence now exceeds `max_target_positions`
(without accumulating), otherwise accumulate `ln prob` and continue.  Returns
`(tokens, sum_logprob, no_speech_prob, rng)`. -/
def decodeLoop {ρ : Type} (env : DecodeEnv ρ) (t : ℚ) (mask : List Logit) :
    Nat → Nat → List Nat → ℚ → Option ℚ → ρ → List Nat × ℚ × Option ℚ × ρ
  | 0, _, tokens, sumLogprob, noSpeechProb, rng => (tokens, sumLogprob, noSpeechProb, rng)
  | fuel + 1, i, tokens, sumLogprob, noSpeechProb, rng =>
    let nsp := if i = 0 then some (env.noSpeechProbAt tokens) else noSpeechProb
    let masked := maskLogits (env.logitsAt tokens) mask
    let sel := if 0 < t then env.sampleAt t masked rng else (argmaxTok masked, rng)
    let tokens2 := tokens ++ [sel.1]
    let prob := env.probOf masked sel.1
    if sel.1 = env.eotToken ∨ env.maxTargetPositions < tokens2.length then
      (tokens2, sumLogprob, nsp, sel.2)
    else
      decodeLoop env t mask fuel (i + 1) tokens2 (sumLogprob + env.lnOf prob) nsp sel.2

namespace Decoder

/-- `Decoder::decode` (transcription.rs, lines 103-179): run the generation
loop for `max_target_positions / 2` steps from the prompt prefix, then decode
the text and form the `DecodingResult`; `compression_ratio` is left at
`f64::NAN` (`none`), `avg_logprob = sum_logprob / tokens.len()`. -/
def decode {ρ : Type} (env : DecodeEnv ρ) (t : ℚ) (rng : ρ) : DecodingResult × ρ :=
  let sampleLen := env.maxTargetPositions / 2
  let mask := buildMask env.vocabSize env.suppressTokens
  let out := decodeLoop env t mask sampleLen 0 (initTokens env) 0 none rng
  ({ tokens := out.1
     text := env.decodeText out.1
     avg_logprob := out.2.1 / (out.1.length : ℚ)
     no_speech_prob := out.2.2.1
     temperature := t
     compression_ratio := none }, out.2.2.2)

/-- `needs_fallback` (transcription.rs, lines 190-191). -/
def needsFallback (dr : DecodingResult) : Bool :=
  floatGt dr.compression_ratio COMPRESSION_RATIO_THRESHOLD ||
    decide (dr.avg_logprob < LOGPROB_THRESHOLD)

/-- The early-acceptance condition of `decode_with_fallback` (transcription.rs,
line 192): `!needs_fallback || dr.no_speech_prob > NO_SPEECH_THRESHOLD`. -/
def acceptEarly (dr : DecodingResult) : Bool :=
  !needsFallback dr || floatGt dr.no_speech_prob NO_SPEECH_THRESHOLD

/-- Outcome of the fallback loop: either a returned result, or the
`unreachable!()` statement after the loop (transcription.rs, line 201). -/
inductive FbOut (E : Type) where
  | ret (r : Except E DecodingResult)
  | unreachable

/-- The `for (i, &t) in TEMPERATURES.iter().enumerate()` loop of
`decode_with_fallback` (transcription.rs, lines 182-200), over the remaining
temperatures with `i` the current index and `total` the ladder length; the
attempt at each rung is the injected `attempt` (the call `self.decode(segment,
t)`, whose rng state rules out calling the same rung twice, hence the index
argument).  Falling off the list reaches the `unreachable!()`. -/
def dwfGo {E : Type} (attempt : Nat → ℚ → Except E DecodingResult) (total : Nat) :
    Nat → List ℚ → FbOut E
  | _, [] => FbOut.unreachable
  | i, t :: rest =>
    let dr := attempt i t
    if i = total - 1 then FbOut.ret dr
    else
      match dr with
      | Except.ok r =>
        if acceptEarly r then FbOut.ret (Except.ok r)
        else dwfGo attempt total (i + 1) rest
      | Except.error _ => dwfGo attempt total (i + 1) rest

/-- `Decoder::decode_with_fallback` (transcription.rs, lines 181-202),
parametric in the temperature ladder. -/
def decodeWithFallback {E : Type} (temps : List ℚ)
    (attempt : Nat → ℚ → Except E DecodingResult) : FbOut E :=
  dwfGo attempt temps.length 0 temps

/-- The `while seek < content_frames` loop of `Decoder::run` (transcription.rs,
lines 208-225), with `fb` the injected per-window fallback decode
(`decode_with_fallback` on the window at `seek` of the given size).  Also
counts the loop iterations executed.  A window whose result clears the silence
test is appended as a `Segment`; the silence test discards it; the cursor
advances by the full window size either way; a window failure propagates
(the `?` on line 214). -/
def runLoop {E : Type} (fb : Nat → Nat → Except E DecodingResult) (contentFrames : Nat)
    (seek : Nat) (segments : List Segment) : Except E (List Segment × Nat) :=
  if h : seek < contentFrames then
    let timeOffset : ℚ := ((seek * HOP_LENGTH : Nat) : ℚ) / ((SAMPLE_RATE : Nat) : ℚ)
    let segmentSize := min (contentFrames - seek) N_FRAMES
    let segmentDuration : ℚ := ((segmentSize * HOP_LENGTH : Nat) : ℚ) / ((SAMPLE_RATE : Nat) : ℚ)
    match fb seek segmentSize with
    | Except.error e => Except.error e
    | Except.ok dr =>
      if floatGt dr.no_speech_prob NO_SPEECH_THRESHOLD &&
          decide (dr.avg_logprob < LOGPROB_THRESHOLD) then
        (runLoop fb contentFrames (seek + segmentSize) segments).map
          (fun out => (out.1, out.2 + 1))
      else
        (runLoop fb contentFrames (seek + segmentSize)
            (segments ++ [{ start := timeOffset, duration := segmentDuration, dr := dr }])).map
          (fun out => (out.1, out.2 + 1))
  else Except.ok (segments, 0)
termination_by contentFrames - seek
decreasing_by
  all_goals simp only [N_FRAMES]
  all_goals omega

/-- `Decoder::run` (transcription.rs, lines 204-227): the segments accumulated
by the loop from `seek = 0`. -/
def run {E : Type} (fb : Nat → Nat → Except E DecodingResult) (contentFrames : Nat) :
    Except E (List Segment) :=
  (runLoop fb contentFrames 0 []).map Prod.fst

end Decoder

/-- A decode attempt outcome that makes `decode_with_fallback` return early
from a non-final rung: a success accepted by the quality gate. -/
def isEarlyAccept {E : Type} (r : Except E DecodingResult) : Prop :=
  ∃ dr, r = Except.ok dr ∧ Decoder.acceptEarly dr = true

/-- A silence-classified result: very confident no-speech, poor average log
probability (used by the concrete witnesses). -/
def drSilent : DecodingResult :=
  { tokens := []
    text := ""
    avg_logprob := -2
    no_speech_prob := some 1
    temperature := 0
    compression_ratio := none }

/-- A per-window fallback oracle that always succeeds with `drSilent`. -/
def fbC6 : Nat → Nat → Except String DecodingResult :=
  fun _ _ => Except.ok drSilent

/-- A per-window fallback oracle failing on the first window (seek 0) and
succeeding on every later window. -/
def fbC1 : Nat → Nat → Except String DecodingResult :=
  fun seek _ => if seek = 0 then Except.error "window failure" else Except.ok drSilent

/-- An attempt oracle that fails at every temperature rung. -/
def attW : Nat → ℚ → Except String DecodingResult :=
  fun _ _ => Except.error "decode failure"

/-- The model/tokenizer oracle used for the concrete counterexamples: a
one-token vocabulary whose raw logits always argmax to the end-of-transcript
token `0`, with `ln` of any chosen-token probability equal to `-5`. -/
def envC3 : DecodeEnv Unit :=
  { vocabSize := 1
    maxTargetPositions := 10
    suppressTokens := []
    sotToken := 1
    transcribeToken := 1
    eotToken := 0
    noTimestampsToken := 1
    languageToken := none
    logitsAt := fun _ => [((1 : ℚ) : Logit)]
    noSpeechProbAt := fun _ => 0
    probOf := fun _ _ => 1
    lnOf := fun _ => -5
    sampleAt := fun _ _ r => (0, r)
    decodeText := fun _ => "" }

/-- A concrete rejected-quality result used by the fallback witnesses. -/
def drW : DecodingResult :=
  { tokens := []
    text := ""
    avg_logprob := -2
    no_speech_prob := none
    temperature := 0
    compression_ratio := none }

theorem COMPRESSION_RATIO_THRESHOLD_eq : COMPRESSION_RATIO_THRESHOLD = 2.4 := by
  norm_num [COMPRESSION_RATIO_THRESHOLD, Rat.mkRat_eq_div]

theorem NO_SPEECH_THRESHOLD_eq : NO_SPEECH_THRESHOLD = 0.6 := by
  norm_num [NO_SPEECH_THRESHOLD, Rat.mkRat_eq_div]

theorem TEMPERATURES_eq : TEMPERATURES = [0, 0.2, 0.4, 0.6, 0.8, 1] := by
  norm_num [TEMPERATURES, Rat.mkRat_eq_div]

theorem totalCmp_eq_gt {a b : Logit} : totalCmp a b = Ordering.gt ↔ b < a := by
  unfold totalCmp
  rcases lt_trichotomy a b with h | h | h
  · rw [if_pos h]
    simp [lt_asymm h]
  · subst h
    simp
  · rw [if_neg (not_lt.mpr h.le), if_neg (ne_of_gt h)]
    simp [h]

theorem maxByStep_eq (acc x : Nat × Logit) :
    maxByStep acc x = if x.2 < acc.2 then acc else x := by
  unfold maxByStep
  by_cases h : x.2 < acc.2
  · rw [if_pos (totalCmp_eq_gt.mpr h), if_pos h]
  · rw [if_neg (fun hc => h (totalCmp_eq_gt.mp hc)), if_neg h]

/-- Invariant of the `max_by` fold: the returned pair is the accumulator or one
of the enumerated entries, its value dominates everything seen, every entry
strictly after the returned index is strictly smaller (the later element wins
ties), and the returned index never moves left of the accumulator. -/
theorem argmaxGo_spec (vs : List Logit) :
    ∀ (idx : Nat) (acc : Nat × Logit), acc.1 < idx →
      (argmaxGo vs idx acc = acc ∨
        ∃ j, j < vs.length ∧ argmaxGo vs idx acc = (idx + j, vs.getD j ⊥)) ∧
      acc.2 ≤ (argmaxGo vs idx acc).2 ∧
      (∀ j, j < vs.length → vs.getD j ⊥ ≤ (argmaxGo vs idx acc).2) ∧
      (∀ j, j < vs.length → (argmaxGo vs idx acc).1 < idx + j →
        vs.getD j ⊥ < (argmaxGo vs idx acc).2) ∧
      acc.1 ≤ (argmaxGo vs idx acc).1 := by
  induction vs with
  | nil =>
    intro idx acc hacc
    refine ⟨Or.inl rfl, le_refl _, ?_, ?_, le_refl _⟩ <;> intro j hj <;> simp at hj
  | cons v vs ih =>
    intro idx acc hacc
    have hgo : argmaxGo (v :: vs) idx acc = argmaxGo vs (idx + 1) (maxByStep acc (idx, v)) := rfl
    rw [maxByStep_eq] at hgo
    by_cases hv : v < acc.2
    · rw [if_pos hv] at hgo
      obtain ⟨ha, hb, hc, hd, he⟩ := ih (idx + 1) acc (Nat.lt_succ_of_lt hacc)
      rw [hgo]
      refine ⟨?_, hb, ?_, ?_, he⟩
      · rcases ha with h | ⟨j, hj, hjr⟩
        · exact Or.inl h
        · exact Or.inr ⟨j + 1, by simpa using Nat.succ_lt_succ hj, by
            rw [hjr, List.getD_cons_succ]; congr 1; omega⟩
      · intro j hj
        match j with
        | 0 => exact (le_of_lt hv).trans hb
        | j + 1 => exact hc j (by simpa using hj)
      · intro j hj hlt
        match j with
        | 0 => exact lt_of_lt_of_le hv hb
        | j + 1 =>
          exact hd j (by simpa using hj) (by omega)
    · rw [if_neg hv] at hgo
      obtain ⟨ha, hb, hc, hd, he⟩ := ih (idx + 1) (idx, v) (Nat.lt_succ_self idx)
      rw [hgo]
      refine ⟨?_, (not_lt.mp hv).trans hb, ?_, ?_, ?_⟩
      · rcases ha with h | ⟨j, hj, hjr⟩
        · exact Or.inr ⟨0, by simp, by rw [h]; simp⟩
        · exact Or.inr ⟨j + 1, by simpa using Nat.succ_lt_succ hj, by
            rw [hjr, List.getD_cons_succ]; congr 1; omega⟩
      · intro j hj
        match j with
        | 0 => exact hb
        | j + 1 => exact hc j (by simpa using hj)
      · intro j hj hlt
        match j with
        | 0 => exact absurd hlt (by simp; omega)
        | j + 1 => exact hd j (by simpa using hj) (by omega)
      · exact le_of_lt (lt_of_lt_of_le hacc he)

/-- Full characterization of `argmaxTok` on a non-empty vector: the selected
index is in range, its logit is maximal, and every later index holds a strictly
smaller logit (so among tied maxima the largest index is selected). -/
theorem argmaxTok_spec (l : List Logit) (hne : l ≠ []) :
    argmaxTok l < l.length ∧
    (∀ j, j < l.length → l.getD j ⊥ ≤ l.getD (argmaxTok l) ⊥) ∧
    (∀ j, j < l.length → argmaxTok l < j → l.getD j ⊥ < l.getD (argmaxTok l) ⊥) := by
  match l, hne with
  | v :: vs, _ =>
    obtain ⟨ha, hb, hc, hd, he⟩ := argmaxGo_spec vs 1 (0, v) Nat.zero_lt_one
    have hargmax : argmaxTok (v :: vs) = (argmaxGo vs 1 (0, v)).1 := rfl
    have hval : (v :: vs).getD (argmaxGo vs 1 (0, v)).1 ⊥ = (argmaxGo vs 1 (0, v)).2 := by
      rcases ha with h | ⟨j, hj, hjr⟩
      · rw [h]; rfl
      · rw [hjr]
        show (v :: vs).getD (1 + j) ⊥ = vs.getD j ⊥
        rw [Nat.add_comm, List.getD_cons_succ]
    have hbound : (argmaxGo vs 1 (0, v)).1 < (v :: vs).length := by
      rcases ha with h | ⟨j, hj, hjr⟩
      · rw [h]; simp
      · rw [hjr]; simp; omega
    rw [hargmax, hval]
    refine ⟨hbound, ?_, ?_⟩
    · intro j hj
      match j with
      | 0 => exact hb
      | j + 1 => exact hc j (by simpa using hj)
    · intro j hj hlt
      match j with
      | 0 => exact absurd hlt (by omega)
      | j + 1 =>
        exact hd j (by simpa using hj) (by omega)

/-- C2 counterexample: on the masked-logits vector `[1, 1]` the two entries tie
for the maximum, and `Decoder::decode` at `t == 0` selects index `1`, not the
first/smallest index `0` that the claim asserts — Rust `Iterator::max_by`
returns the last of equally-maximum elements. -/
theorem argmax_tie_first_index_cex :
    ([((1 : ℚ) : Logit), ((1 : ℚ) : Logit)] : List Logit).getD 0 ⊥ =
      ([((1 : ℚ) : Logit), ((1 : ℚ) : Logit)] : List Logit).getD 1 ⊥ ∧
    argmaxTok [((1 : ℚ) : Logit), ((1 : ℚ) : Logit)] = 1 := by
  decide

/-- C2 (amended): for every non-empty masked-logits vector and temperature
`t == 0`, `Decoder::decode` selects an index of the maximum masked logit, and
when several indices share the maximum value it selects the **last** such index
in iteration order (the largest index): the selected index is in range, no
entry exceeds it, and every entry at a strictly larger index is strictly
smaller. -/
theorem argmax_selects_max_tie_last (l : List Logit) (hne : l ≠ []) :
    argmaxTok l < l.length ∧
    (∀ j, j < l.length → l.getD j ⊥ ≤ l.getD (argmaxTok l) ⊥) ∧
    (∀ j, j < l.length → argmaxTok l < j → l.getD j ⊥ < l.getD (argmaxTok l) ⊥) :=
  argmaxTok_spec l hne

theorem argmax_selects_max_tie_last_witness :
    (([((0 : ℚ) : Logit), ((1 : ℚ) : Logit)] : List Logit) ≠ []) ∧
    (argmaxTok [((0 : ℚ) : Logit), ((1 : ℚ) : Logit)] <
        ([((0 : ℚ) : Logit), ((1 : ℚ) : Logit)] : List Logit).length ∧
      (∀ j, j < ([((0 : ℚ) : Logit), ((1 : ℚ) : Logit)] : List Logit).length →
        ([((0 : ℚ) : Logit), ((1 : ℚ) : Logit)] : List Logit).getD j ⊥ ≤
          ([((0 : ℚ) : Logit), ((1 : ℚ) : Logit)] : List Logit).getD
            (argmaxTok [((0 : ℚ) : Logit), ((1 : ℚ) : Logit)]) ⊥) ∧
      (∀ j, j < ([((0 : ℚ) : Logit), ((1 : ℚ) : Logit)] : List Logit).length →
        argmaxTok [((0 : ℚ) : Logit), ((1 : ℚ) : Logit)] < j →
        ([((0 : ℚ) : Logit), ((1 : ℚ) : Logit)] : List Logit).getD j ⊥ <
          ([((0 : ℚ) : Logit), ((1 : ℚ) : Logit)] : List Logit).getD
            (argmaxTok [((0 : ℚ) : Logit), ((1 : ℚ) : Logit)]) ⊥)) :=
  ⟨by decide, argmax_selects_max_tie_last _ (by decide)⟩

theorem buildMask_getD (vocab : Nat) (suppress : List Nat) (k : Nat) (hk : k < vocab) :
    (buildMask vocab suppress).getD k ⊥ =
      if k ∈ suppress then (⊥ : Logit) else ((0 : ℚ) : Logit) := by
  have hlen : (buildMask vocab suppress).length = vocab := by
    simp [buildMask]
  rw [List.getD_eq_getElem _ _ (by omega)]
  simp [buildMask]

theorem maskLogits_length (raw mask : List Logit) :
    (maskLogits raw mask).length = min raw.length mask.length := by
  simp [maskLogits]

theorem maskLogits_getD (raw mask : List Logit) (k : Nat)
    (hk : k < raw.length) (hk2 : k < mask.length) :
    (maskLogits raw mask).getD k ⊥ = raw.getD k ⊥ + mask.getD k ⊥ := by
  rw [List.getD_eq_getElem _ _ (by simp [maskLogits]; omega),
    List.getD_eq_getElem _ _ hk, List.getD_eq_getElem _ _ hk2]
  simp [maskLogits]

theorem sampleW_ne_of_zero (ws : List ℝ) (x : ℝ) (i : Nat) (hx : 0 ≤ x)
    (hi : i < ws.length) (hw : ws.getD i 0 = 0) : sampleW ws x ≠ i := by
  induction ws generalizing x i with
  | nil => simp at hi
  | cons w ws ih =>
    match i with
    | 0 =>
      intro hcontra
      unfold sampleW at hcontra
      rw [List.getD_cons_zero] at hw
      rw [hw, if_neg (not_lt.mpr hx)] at hcontra
      omega
    | i + 1 =>
      unfold sampleW
      by_cases hlt : x < w
      · rw [if_pos hlt]
        omega
      · rw [if_neg hlt]
        have := ih (x - w) i (by linarith [not_lt.mp hlt]) (by simpa using hi)
          (by simpa using hw)
        omega

theorem softmaxT_getD_bot (t : ℚ) (l : List Logit) (i : Nat)
    (hi : i < l.length) (hbot : l.getD i ⊥ = ⊥) :
    (softmaxT t l).getD i 0 = 0 := by
  have hlen : (softmaxT t l).length = l.length := by
    simp [softmaxT]
  rw [List.getD_eq_getElem _ _ (by omega)]
  rw [List.getD_eq_getElem _ _ hi] at hbot
  simp [softmaxT, hbot, expW]

/-- C9: the suppression mask built at `Decoder::new` is `-∞` exactly at the
configured suppressed ids and `0` elsewhere, and after its element-wise
addition to the raw logits, token selection (`t == 0` argmax as well as
`t > 0` weighted sampling from the softmaxed distribution) never chooses a
suppressed id, provided some unsuppressed id has a finite logit. -/
theorem suppression_mask_sound (vocab : Nat) (suppress : List Nat) (raw : List Logit)
    (t : ℚ) (x : ℝ) (i : Nat)
    (hlen : raw.length = vocab) (hi : i < vocab) (hsup : i ∈ suppress)
    (hex : ∃ j, j < vocab ∧ j ∉ suppress ∧ raw.getD j ⊥ ≠ ⊥)
    (hx : 0 ≤ x) :
    (∀ k, k < vocab → (buildMask vocab suppress).getD k ⊥ =
        if k ∈ suppress then (⊥ : Logit) else ((0 : ℚ) : Logit)) ∧
    nextTokenSel t (maskLogits raw (buildMask vocab suppress)) x ≠ i := by
  have hmlen : (buildMask vocab suppress).length = vocab := by
    simp [buildMask]
  have hlen2 : (maskLogits raw (buildMask vocab suppress)).length = vocab := by
    rw [maskLogits_length, hlen, hmlen, Nat.min_self]
  have hboti : (maskLogits raw (buildMask vocab suppress)).getD i ⊥ = ⊥ := by
    rw [maskLogits_getD _ _ _ (by omega) (by omega), buildMask_getD _ _ _ hi, if_pos hsup]
    exact WithBot.add_bot _
  refine ⟨fun k hk => buildMask_getD vocab suppress k hk, ?_⟩
  unfold nextTokenSel
  by_cases ht : 0 < t
  · rw [if_pos ht]
    exact sampleW_ne_of_zero _ x i hx (by simp [softmaxT]; omega)
      (softmaxT_getD_bot t _ i (by omega) hboti)
  · rw [if_neg ht]
    obtain ⟨j, hj, hjns, hjfin⟩ := hex
    have hfinj : (maskLogits raw (buildMask vocab suppress)).getD j ⊥ = raw.getD j ⊥ := by
      rw [maskLogits_getD _ _ _ (by omega) (by omega), buildMask_getD _ _ _ hj, if_neg hjns]
      exact add_zero _
    intro hcontra
    obtain ⟨hbound, hmax, hlast⟩ := argmaxTok_spec (maskLogits raw (buildMask vocab suppress))
      (by intro hnil; rw [hnil] at hlen2; simp at hlen2; omega)
    have := hmax j (by omega)
    rw [hcontra, hboti] at this
    exact hjfin (by rw [← hfinj]; exact le_bot_iff.mp this)

/-- At temperature `0` the generation loop ignores and never advances the rng
state: its token/score/no-speech outputs agree for any two rng states, and the
rng is returned unchanged. -/
theorem decodeLoop_t0 {ρ : Type} (env : DecodeEnv ρ) (mask : List Logit) :
    ∀ (fuel i : Nat) (tokens : List Nat) (s : ℚ) (nsp : Option ℚ) (r r' : ρ),
      decodeLoop env 0 mask fuel i tokens s nsp r =
        ((decodeLoop env 0 mask fuel i tokens s nsp r').1,
          (decodeLoop env 0 mask fuel i tokens s nsp r').2.1,
          (decodeLoop env 0 mask fuel i tokens s nsp r').2.2.1, r) := by
  intro fuel
  induction fuel with
  | zero => intro i tokens s nsp r r'; rfl
  | succ fuel ih =>
    intro i tokens s nsp r r'
    simp only [decodeLoop, lt_self_iff_false, if_false]
    by_cases hstop : argmaxTok (maskLogits (env.logitsAt tokens) mask) = env.eotToken ∨
        env.maxTargetPositions <
          (tokens ++ [argmaxTok (maskLogits (env.logitsAt tokens) mask)]).length
    · rw [if_pos hstop, if_pos hstop]
    · rw [if_neg hstop, if_neg hstop]
      exact ih _ _ _ _ _ _

/-- C8: for temperature 0, any two invocations of `Decoder::decode` with the
same injected model/tokenizer capabilities produce identical `DecodingResult`s
(token sequence, text, and all metrics) regardless of the rng state, and the
rng state is returned untouched — the `t == 0` path consults no random state. -/
theorem decode_deterministic_t0 {ρ : Type} (env : DecodeEnv ρ) (r1 r2 : ρ) :
    (Decoder.decode env 0 r1).1 = (Decoder.decode env 0 r2).1 ∧
    (Decoder.decode env 0 r1).2 = r1 := by
  have h := decodeLoop_t0 env (buildMask env.vocabSize env.suppressTokens)
    (env.maxTargetPositions / 2) 0 (initTokens env) 0 none r1 r2
  constructor
  · simp only [Decoder.decode]
    rw [h]
  · simp only [Decoder.decode]
    rw [h]

/-- C3 counterexample: a decode whose very first chosen token is the
end-of-transcript token.  The natural log of that token's probability is `-5`,
yet `avg_logprob` is `0`: the final step's log probability was NOT accumulated
into `sum_logprob`, so the accumulation (spec step e) does not precede the stop
check (spec step f) on the final step. -/
theorem logprob_accumulate_order_cex :
    (Decoder.decode envC3 0 ()).1.tokens = [1, 1, 1, 0] ∧
    envC3.lnOf (envC3.probOf (maskLogits (envC3.logitsAt [1, 1, 1])
      (buildMask 1 [])) 0) = -5 ∧
    (Decoder.decode envC3 0 ()).1.avg_logprob = 0 :=
  ⟨by decide, by decide, zero_div _⟩

/-- C3 (amended): the stop condition (spec step f) is evaluated **before** the
accumulation (spec step e): in a decoding step whose chosen token equals the
end-of-transcript token, or whose append makes the token sequence exceed
`max_target_positions`, the loop returns with `sum_logprob` unchanged — the
final step's log probability is never accumulated. -/
theorem sum_logprob_unchanged_on_stop {ρ : Type} (env : DecodeEnv ρ) (t : ℚ)
    (mask : List Logit) (fuel i : Nat) (tokens : List Nat) (s : ℚ) (nsp : Option ℚ) (rng : ρ)
    (hstop :
      (if 0 < t then env.sampleAt t (maskLogits (env.logitsAt tokens) mask) rng
        else (argmaxTok (maskLogits (env.logitsAt tokens) mask), rng)).1 = env.eotToken ∨
        env.maxTargetPositions < tokens.length + 1) :
    (decodeLoop env t mask (fuel + 1) i tokens s nsp rng).2.1 = s := by
  simp only [decodeLoop, List.length_append, List.length_cons, List.length_nil]
  rw [if_pos hstop]

theorem sum_logprob_unchanged_on_stop_witness :
    ((if (0 : ℚ) < 0 then
        envC3.sampleAt 0 (maskLogits (envC3.logitsAt [1, 1, 1]) (buildMask 1 [])) ()
      else (argmaxTok (maskLogits (envC3.logitsAt [1, 1, 1]) (buildMask 1 [])), ())).1 =
        envC3.eotToken ∨
      envC3.maxTargetPositions < [1, 1, 1].length + 1) ∧
    (decodeLoop envC3 0 (buildMask 1 []) 5 0 [1, 1, 1] 0 none ()).2.1 = 0 :=
  ⟨by decide,
    sum_logprob_unchanged_on_stop envC3 0 (buildMask 1 []) 4 0 [1, 1, 1] 0 none () (by decide)⟩

/-- C10: every `DecodingResult` produced by `Decoder::decode` carries
`compression_ratio = NaN` (`none`); consequently the quality-gate comparison
`compression_ratio > COMPRESSION_RATIO_THRESHOLD` is false on such results, and
`needs_fallback` reduces to `avg_logprob < LOGPROB_THRESHOLD` alone. -/
theorem compression_ratio_placeholder {ρ : Type} (env : DecodeEnv ρ) (t : ℚ) (rng : ρ) :
    (Decoder.decode env t rng).1.compression_ratio = none ∧
    (∀ dr : DecodingResult, dr.compression_ratio = none →
      floatGt dr.compression_ratio COMPRESSION_RATIO_THRESHOLD = false ∧
      Decoder.needsFallback dr = decide (dr.avg_logprob < LOGPROB_THRESHOLD)) := by
  refine ⟨rfl, ?_⟩
  intro dr h
  refine ⟨by rw [h]; rfl, ?_⟩
  simp [Decoder.needsFallback, h, floatGt]

theorem compression_ratio_placeholder_witness :
    (drW.compression_ratio = none) ∧
    ((Decoder.decode envC3 0 ()).1.compression_ratio = none ∧
      (floatGt drW.compression_ratio COMPRESSION_RATIO_THRESHOLD = false ∧
        Decoder.needsFallback drW = decide (drW.avg_logprob < LOGPROB_THRESHOLD))) :=
  ⟨rfl, (compression_ratio_placeholder envC3 0 ()).1,
    (compression_ratio_placeholder envC3 0 ()).2 drW rfl⟩

theorem suppression_mask_sound_witness :
    (([((0 : ℚ) : Logit), ((0 : ℚ) : Logit)] : List Logit).length = 2) ∧ (0 < 2) ∧
    (0 ∈ ([0] : List Nat)) ∧
    (∃ j, j < 2 ∧ j ∉ ([0] : List Nat) ∧
      ([((0 : ℚ) : Logit), ((0 : ℚ) : Logit)] : List Logit).getD j ⊥ ≠ ⊥) ∧
    ((0 : ℝ) ≤ 0) ∧
    ((∀ k, k < 2 → (buildMask 2 [0]).getD k ⊥ =
        if k ∈ ([0] : List Nat) then (⊥ : Logit) else ((0 : ℚ) : Logit)) ∧
      nextTokenSel 0 (maskLogits [((0 : ℚ) : Logit), ((0 : ℚ) : Logit)] (buildMask 2 [0])) 0 ≠ 0) :=
  ⟨by decide, by decide, by decide, ⟨1, by decide⟩, le_refl 0,
    suppression_mask_sound 2 [0] [((0 : ℚ) : Logit), ((0 : ℚ) : Logit)] 0 0 0
      (by decide) (by decide) (by decide) ⟨1, by decide⟩ (le_refl 0)⟩

/-- C4: at every non-final rung whose attempt succeeds with result `dr`,
`decode_with_fallback` returns `dr` exactly when
`!(compression_ratio > COMPRESSION_RATIO_THRESHOLD ||
avg_logprob < LOGPROB_THRESHOLD) || no_speech_prob > NO_SPEECH_THRESHOLD`,
and otherwise proceeds to the next temperature rung. -/
theorem fallback_accept_iff {E : Type} (attempt : Nat → ℚ → Except E DecodingResult)
    (total i : Nat) (t : ℚ) (rest : List ℚ) (dr : DecodingResult)
    (hi : i < total - 1) (h : attempt i t = Except.ok dr) :
    Decoder.dwfGo attempt total i (t :: rest) =
      if !(floatGt dr.compression_ratio COMPRESSION_RATIO_THRESHOLD ||
            decide (dr.avg_logprob < LOGPROB_THRESHOLD)) ||
          floatGt dr.no_speech_prob NO_SPEECH_THRESHOLD then
        Decoder.FbOut.ret (Except.ok dr)
      else Decoder.dwfGo attempt total (i + 1) rest := by
  have hne : i ≠ total - 1 := by omega
  simp only [Decoder.dwfGo, h, if_neg hne]
  rfl

theorem fallback_accept_iff_witness :
    (0 < 2 - 1) ∧ (fbC6 0 0 = Except.ok drSilent) ∧
    Decoder.dwfGo (fun i t => fbC6 i 0) 2 0 (0 :: [1]) =
      (if !(floatGt drSilent.compression_ratio COMPRESSION_RATIO_THRESHOLD ||
            decide (drSilent.avg_logprob < LOGPROB_THRESHOLD)) ||
          floatGt drSilent.no_speech_prob NO_SPEECH_THRESHOLD then
        Decoder.FbOut.ret (Except.ok drSilent)
      else Decoder.dwfGo (fun i t => fbC6 i 0) 2 (0 + 1) [1]) :=
  ⟨by decide, rfl,
    fallback_accept_iff (fun i t => fbC6 i 0) 2 0 0 [1] drSilent (by decide) rfl⟩

/-- Totality and final-rung behaviour of the `decode_with_fallback` loop over a
suffix of the ladder whose first element sits at rung `i` (so `i + ts.length`
equals the ladder length): the loop never falls through to the
`unreachable!()`; when no non-final rung early-returns, it returns the final
rung's attempt unconditionally; and an error return always comes from the
final rung's attempt. -/
theorem dwfGo_spec {E : Type} (attempt : Nat → ℚ → Except E DecodingResult) (total : Nat) :
    ∀ (ts : List ℚ) (i : Nat), ts ≠ [] → i + ts.length = total →
      (Decoder.dwfGo attempt total i ts ≠ Decoder.FbOut.unreachable) ∧
      ((∀ j, j < ts.length → i + j < total - 1 →
          ¬ isEarlyAccept (attempt (i + j) (ts.getD j 0))) →
        Decoder.dwfGo attempt total i ts =
          Decoder.FbOut.ret (attempt (total - 1) (ts.getD (ts.length - 1) 0))) ∧
      (∀ e, Decoder.dwfGo attempt total i ts = Decoder.FbOut.ret (Except.error e) →
        attempt (total - 1) (ts.getD (ts.length - 1) 0) = Except.error e) := by
  intro ts
  induction ts with
  | nil => intro i hne; exact absurd rfl hne
  | cons t rest ih =>
    intro i hne hlen
    by_cases hrest : rest = []
    · subst hrest
      have hi : i = total - 1 := by simp at hlen; omega
      have hstep : Decoder.dwfGo attempt total i [t] = Decoder.FbOut.ret (attempt i t) := by
        simp only [Decoder.dwfGo]
        rw [if_pos hi]
      refine ⟨by rw [hstep]; intro hc; exact Decoder.FbOut.noConfusion hc, ?_, ?_⟩
      · intro _
        rw [hstep, hi]
        rfl
      · intro e he
        rw [hstep] at he
        rw [← hi]
        exact Decoder.FbOut.ret.inj he
    · have hlenr : 0 < rest.length := List.length_pos.mpr hrest
      have hi : i ≠ total - 1 := by simp at hlen; omega
      have hshift : (i + 1) + rest.length = total := by simp at hlen; omega
      obtain ⟨IHa, IHb, IHc⟩ := ih (i + 1) hrest hshift
      have hgetD : (t :: rest).getD ((t :: rest).length - 1) 0 =
          rest.getD (rest.length - 1) 0 := by
        obtain ⟨n, hn⟩ : ∃ n, rest.length = n + 1 := ⟨rest.length - 1, by omega⟩
        simp [hn]
      rcases hatt : attempt i t with e0 | r
      · have hstep : Decoder.dwfGo attempt total i (t :: rest) =
            Decoder.dwfGo attempt total (i + 1) rest := by
          simp only [Decoder.dwfGo, hatt]
          rw [if_neg hi]
        refine ⟨by rw [hstep]; exact IHa, ?_, ?_⟩
        · intro hall
          rw [hstep, hgetD]
          apply IHb
          intro j hj hjlt
          have := hall (j + 1) (by simpa using Nat.succ_lt_succ hj) (by omega)
          simpa [Nat.add_assoc, Nat.add_comm 1 j] using this
        · intro e he
          rw [hstep] at he
          rw [hgetD]
          exact IHc e he
      · by_cases hacc : Decoder.acceptEarly r = true
        · have hstep : Decoder.dwfGo attempt total i (t :: rest) =
              Decoder.FbOut.ret (Except.ok r) := by
            simp only [Decoder.dwfGo, hatt]
            rw [if_neg hi, if_pos hacc]
          refine ⟨by rw [hstep]; intro hc; exact Decoder.FbOut.noConfusion hc, ?_, ?_⟩
          · intro hall
            exfalso
            have h0 := hall 0 (by simp) (by omega)
            exact h0 ⟨r, by simpa using hatt, hacc⟩
          · intro e he
            rw [hstep] at he
            exact absurd (Decoder.FbOut.ret.inj he) (fun hx => Except.noConfusion hx)
        · have hstep : Decoder.dwfGo attempt total i (t :: rest) =
              Decoder.dwfGo attempt total (i + 1) rest := by
            simp only [Decoder.dwfGo, hatt]
            rw [if_neg hi, if_neg hacc]
          refine ⟨by rw [hstep]; exact IHa, ?_, ?_⟩
          · intro hall
            rw [hstep, hgetD]
            apply IHb
            intro j hj hjlt
            have := hall (j + 1) (by simpa using Nat.succ_lt_succ hj) (by omega)
            simpa [Nat.add_assoc, Nat.add_comm 1 j] using this
          · intro e he
            rw [hstep] at he
            rw [hgetD]
            exact IHc e he

/-- C5: for every non-empty temperature ladder `decode_with_fallback` always
returns instead of reaching the `unreachable!()` after the loop; when every
non-final rung either fails (the failure is swallowed and the next temperature
tried) or is rejected by the quality gate, the final rung's attempt — success
or failure — is returned unconditionally without evaluating quality gates; and
a failure can propagate out only as the final rung's failure. -/
theorem fallback_totality {E : Type} (temps : List ℚ)
    (attempt : Nat → ℚ → Except E DecodingResult) (hne : temps ≠ []) :
    (Decoder.decodeWithFallback temps attempt ≠ Decoder.FbOut.unreachable) ∧
    ((∀ j, j < temps.length - 1 → ¬ isEarlyAccept (attempt j (temps.getD j 0))) →
      Decoder.decodeWithFallback temps attempt =
        Decoder.FbOut.ret (attempt (temps.length - 1) (temps.getD (temps.length - 1) 0))) ∧
    (∀ e, Decoder.decodeWithFallback temps attempt = Decoder.FbOut.ret (Except.error e) →
      attempt (temps.length - 1) (temps.getD (temps.length - 1) 0) = Except.error e) := by
  obtain ⟨ha, hb, hc⟩ := dwfGo_spec attempt temps.length temps 0 hne (by omega)
  refine ⟨ha, ?_, hc⟩
  intro hall
  apply hb
  intro j hj hjlt
  simpa using hall j (by omega)

theorem fallback_totality_witness :
    (TEMPERATURES ≠ []) ∧
    ((Decoder.decodeWithFallback TEMPERATURES attW ≠ Decoder.FbOut.unreachable) ∧
      ((∀ j, j < TEMPERATURES.length - 1 →
          ¬ isEarlyAccept (attW j (TEMPERATURES.getD j 0))) →
        Decoder.decodeWithFallback TEMPERATURES attW =
          Decoder.FbOut.ret (attW (TEMPERATURES.length - 1)
            (TEMPERATURES.getD (TEMPERATURES.length - 1) 0))) ∧
      (∀ e, Decoder.decodeWithFallback TEMPERATURES attW =
          Decoder.FbOut.ret (Except.error e) →
        attW (TEMPERATURES.length - 1) (TEMPERATURES.getD (TEMPERATURES.length - 1) 0) =
          Except.error e)) :=
  ⟨by decide, fallback_totality TEMPERATURES attW (by decide)⟩

/-- C1 (amended): a window-level failure (`decode_with_fallback` failing at the
final temperature rung) aborts `Decoder::run` immediately through the `?`
operator: the loop returns that error, later windows are not processed, and no
segments — including those accepted for earlier windows — are returned. -/
theorem run_aborts_on_window_failure {E : Type} (fb : Nat → Nat → Except E DecodingResult)
    (contentFrames seek : Nat) (segments : List Segment) (e : E)
    (hseek : seek < contentFrames)
    (hfail : fb seek (min (contentFrames - seek) N_FRAMES) = Except.error e) :
    Decoder.runLoop fb contentFrames seek segments = Except.error e := by
  unfold Decoder.runLoop
  rw [dif_pos hseek]
  simp only [hfail]

theorem run_aborts_on_window_failure_witness :
    (0 < 6000) ∧ (fbC1 0 (min (6000 - 0) N_FRAMES) = Except.error "window failure") ∧
    Decoder.runLoop fbC1 6000 0 [] = Except.error "window failure" :=
  ⟨by decide, rfl,
    run_aborts_on_window_failure fbC1 6000 0 [] "window failure" (by decide) rfl⟩

/-- C1 counterexample: a feature tensor of 6000 frames (two windows) where the
per-window fallback fails on the first window and would succeed on the second:
`Decoder::run` returns the first window's error — it does not continue with
the later window and returns none of its accepted segments. -/
theorem run_continues_after_failure_cex :
    fbC1 3000 3000 = Except.ok drSilent ∧
    Decoder.run fbC1 6000 = Except.error "window failure" := by
  refine ⟨rfl, ?_⟩
  unfold Decoder.run
  unfold Decoder.runLoop
  rw [dif_pos (by omega : (0 : Nat) < 6000)]
  simp only [fbC1]
  rfl

/-- C6: a window whose fallback result is classified as silence
(`no_speech_prob > NO_SPEECH_THRESHOLD` and `avg_logprob < LOGPROB_THRESHOLD`)
contributes no `Segment` — the accumulated segment list is passed on unchanged —
while the seek cursor still advances by the full window size
`min (content_frames - seek) N_FRAMES`. -/
theorem silence_skip_advances_full_window {E : Type} (fb : Nat → Nat → Except E DecodingResult)
    (contentFrames seek : Nat) (segments : List Segment) (dr : DecodingResult)
    (hseek : seek < contentFrames)
    (hok : fb seek (min (contentFrames - seek) N_FRAMES) = Except.ok dr)
    (hnsp : floatGt dr.no_speech_prob NO_SPEECH_THRESHOLD = true)
    (havg : dr.avg_logprob < LOGPROB_THRESHOLD) :
    Decoder.runLoop fb contentFrames seek segments =
      (Decoder.runLoop fb contentFrames (seek + min (contentFrames - seek) N_FRAMES)
        segments).map (fun out => (out.1, out.2 + 1)) := by
  conv_lhs => rw [Decoder.runLoop]
  rw [dif_pos hseek]
  simp only [hok]
  rw [if_pos (by rw [hnsp, Bool.true_and]; exact decide_eq_true havg)]

theorem silence_skip_advances_full_window_witness :
    (0 < 3000) ∧ (fbC6 0 (min (3000 - 0) N_FRAMES) = Except.ok drSilent) ∧
    (floatGt drSilent.no_speech_prob NO_SPEECH_THRESHOLD = true) ∧
    (drSilent.avg_logprob < LOGPROB_THRESHOLD) ∧
    Decoder.runLoop fbC6 3000 0 [] =
      (Decoder.runLoop fbC6 3000 (0 + min (3000 - 0) N_FRAMES) []).map
        (fun out => (out.1, out.2 + 1)) :=
  ⟨by decide, rfl, by decide, by decide,
    silence_skip_advances_full_window fbC6 3000 0 [] drSilent (by decide) rfl
      (by decide) (by decide)⟩

/-- C7: while `seek < content_frames` every iteration strictly advances the
seek cursor (the window size is at least 1), and when every window decode
succeeds the loop terminates after exactly
`ceil (content_frames - seek) / N_FRAMES` iterations — from `seek = 0`,
`ceil (content_frames / N_FRAMES)` iterations. -/
theorem run_progress_iterations {E : Type} (fb : Nat → Nat → Except E DecodingResult)
    (contentFrames : Nat) (hok : ∀ s n, ∃ dr, fb s n = Except.ok dr) :
    (∀ seek, seek < contentFrames → seek < seek + min (contentFrames - seek) N_FRAMES) ∧
    (∀ seek segments, ∃ out,
      Decoder.runLoop fb contentFrames seek segments = Except.ok out ∧
        out.2 = (contentFrames - seek + (N_FRAMES - 1)) / N_FRAMES) := by
  constructor
  · intro seek h
    simp only [N_FRAMES]
    omega
  · have main : ∀ rem seek segments, contentFrames - seek = rem →
        ∃ out, Decoder.runLoop fb contentFrames seek segments = Except.ok out ∧
          out.2 = (rem + (N_FRAMES - 1)) / N_FRAMES := by
      intro rem
      induction rem using Nat.strong_induction_on with
      | _ rem ih =>
        intro seek segments hrem
        by_cases h : seek < contentFrames
        · obtain ⟨dr, hdr⟩ := hok seek (min (contentFrames - seek) N_FRAMES)
          have hrem2 : contentFrames - (seek + min (contentFrames - seek) N_FRAMES) =
              rem - min rem N_FRAMES := by
            omega
          have hlt : rem - min rem N_FRAMES < rem := by
            simp only [N_FRAMES] at *
            omega
          have hcount : (rem - min rem N_FRAMES + (N_FRAMES - 1)) / N_FRAMES + 1 =
              (rem + (N_FRAMES - 1)) / N_FRAMES := by
            simp only [N_FRAMES] at *
            omega
          rw [Decoder.runLoop, dif_pos h]
          simp only [hdr]
          by_cases hsil : (floatGt dr.no_speech_prob NO_SPEECH_THRESHOLD &&
              decide (dr.avg_logprob < LOGPROB_THRESHOLD)) = true
          · rw [if_pos hsil]
            obtain ⟨out, hout, hcnt⟩ := ih (rem - min rem N_FRAMES) hlt
              (seek + min (contentFrames - seek) N_FRAMES) segments hrem2
            refine ⟨(out.1, out.2 + 1), ?_, ?_⟩
            · rw [hout]
              rfl
            · simp only []
              omega
          · rw [if_neg hsil]
            obtain ⟨out, hout, hcnt⟩ := ih (rem - min rem N_FRAMES) hlt
              (seek + min (contentFrames - seek) N_FRAMES)
              (segments ++
                [⟨((seek * HOP_LENGTH : Nat) : ℚ) / ((SAMPLE_RATE : Nat) : ℚ),
                  ((min (contentFrames - seek) N_FRAMES * HOP_LENGTH : Nat) : ℚ) /
                    ((SAMPLE_RATE : Nat) : ℚ), dr⟩]) hrem2
            refine ⟨(out.1, out.2 + 1), ?_, ?_⟩
            · rw [hout]
              rfl
            · simp only []
              omega
        · rw [Decoder.runLoop, dif_neg h]
          refine ⟨(segments, 0), rfl, ?_⟩
          have : rem = 0 := by omega
          subst this
          simp only [N_FRAMES]
    intro seek segments
    exact main (contentFrames - seek) seek segments rfl

theorem run_progress_iterations_witness :
    (∀ s n, ∃ dr, fbC6 s n = Except.ok dr) ∧
    ((∀ seek, seek < 3000 → seek < seek + min (3000 - seek) N_FRAMES) ∧
      (∀ seek segments, ∃ out,
        Decoder.runLoop fbC6 3000 seek segments = Except.ok out ∧
          out.2 = (3000 - seek + (N_FRAMES - 1)) / N_FRAMES)) :=
  ⟨fun s n => ⟨drSilent, rfl⟩,
    run_progress_iterations fbC6 3000 (fun s n => ⟨drSilent, rfl⟩)⟩
